import Mathlib

/-!
Shallow embedding of the GraphSnake game engine (src/snake/graph.py and
src/snake/algorithm.py) together with proofs of the specification claims.

Vertices are modelled by their ids (`Nat`), because Python `Vertex` equality
and hashing are id-based.  The mutable `type` fields of vertices and edges
are modelled by explicit type maps carried in the game state.  Python
exceptions are modelled by an error component: a state-mutating operation
returns the state at the moment the exception was raised together with the
raised error, mirroring Python semantics where the mutated-so-far object
survives the exception.
-/

/-- VertexType enum from graph.py. -/
inductive VertexType where
  | NONE
  | EMPTY
  | WALL
  | SNAKE
  | APPLE
deriving DecidableEq

/-- EdgeType enum from graph.py. -/
inductive EdgeType where
  | NONE
  | EMPTY
  | SNAKE
  | WALL
deriving DecidableEq

/-- Python exceptions raised by the engine: ValueError (get_other on a
non-incident vertex, failed verify, randrange(0), random.sample from an
empty population), KeyError (dict lookup / set.remove misses),
IndexError (list indexing such as body[-1] on an empty body or
list(apples)[0] on an empty set), AttributeError (calling a method on a
None edge produced by get_edge), and the generic Exception raised by
Snake.die. -/
inductive GameError where
  | valueError
  | keyError
  | indexError
  | attributeError
  | snakeDied
deriving DecidableEq

deriving instance DecidableEq for Except

/-- Edge from graph.py: two endpoint vertex ids and a directedness flag.
The mutable `type` field lives in the game state's edge-type map, keyed by
this value; within a game all edges are the canonical objects stored in the
graph, so value equality coincides with object identity for them. -/
structure Edge where
  first : Nat
  second : Nat
  directed : Bool := false
deriving DecidableEq

/-- Edge.get_other from graph.py: the endpoint that is not `v`, or `none`
for the ValueError raised when `v` is incident to neither endpoint. -/
def Edge.get_other (e : Edge) (v : Nat) : Option Nat :=
  if e.first = v then some e.second
  else if e.second = v then some e.first
  else none

theorem Edge.get_other_cases {e : Edge} {v w : Nat} (h : e.get_other v = some w) :
    (e.first = v ∧ e.second = w) ∨ (e.first = w ∧ e.second = v) := by
  unfold Edge.get_other at h
  split at h
  · exact Or.inl ⟨by assumption, by injection h⟩
  · split at h
    · exact Or.inr ⟨by injection h, by assumption⟩
    · exact absurd h (by simp)

/-- If `get_other v = some w` then `get_other w = some v`; this mirrors the
symmetry of the Python method on the two endpoints of an edge. -/
theorem Edge.get_other_symm {e : Edge} {v w : Nat} (h : e.get_other v = some w) :
    e.get_other w = some v := by
  rcases Edge.get_other_cases h with ⟨h1, h2⟩ | ⟨h1, h2⟩ <;> unfold Edge.get_other <;>
    subst h1 <;> subst h2 <;> simp_all [Edge.get_other] <;> split <;> simp_all

/-- The endpoints of an edge successfully traversed by get_other are exactly
the input and output vertices. -/
theorem Edge.get_other_ends {e : Edge} {v w x : Nat} (h : e.get_other v = some w)
    (hx : e.first = x ∨ e.second = x) : x = v ∨ x = w := by
  rcases Edge.get_other_cases h with ⟨h1, h2⟩ | ⟨h1, h2⟩ <;> rcases hx with hx | hx <;>
    subst hx <;> simp_all <;> tauto

/-- The vertex sequence visited by walking a list of edges from `v`,
including the start and the final vertex; `none` models a ValueError from
get_other.  This is the specification-side companion of the loops in
Snake.verify and Snake.get_segments. -/
def walkFrom (v : Nat) : List Edge → Option (List Nat)
  | [] => some [v]
  | e :: es =>
    match e.get_other v with
    | none => none
    | some w => (walkFrom w es).map (v :: ·)

/-- The vertex sequence of the loop in Snake.get_segments: each vertex is
appended before stepping, so the final vertex is excluded. -/
def interiorWalk (v : Nat) : List Edge → Option (List Nat)
  | [] => some []
  | e :: es =>
    match e.get_other v with
    | none => none
    | some w => (interiorWalk w es).map (v :: ·)

theorem walkFrom_cons_some {v w : Nat} {e : Edge} {es : List Edge} {l : List Nat}
    (hg : e.get_other v = some w) (h : walkFrom v (e :: es) = some l) :
    ∃ l', walkFrom w es = some l' ∧ l = v :: l' := by
  simp only [walkFrom, hg, Option.map_eq_some'] at h
  obtain ⟨l', hw, rfl⟩ := h
  exact ⟨l', hw, rfl⟩

theorem walkFrom_cons_step {v : Nat} {e : Edge} {es : List Edge} {l : List Nat}
    (h : walkFrom v (e :: es) = some l) : ∃ w, e.get_other v = some w := by
  simp only [walkFrom] at h
  cases hg : e.get_other v with
  | none => rw [hg] at h; simp at h
  | some w => exact ⟨w, rfl⟩

theorem walkFrom_ne_nil {v : Nat} {es : List Edge} {l : List Nat}
    (h : walkFrom v es = some l) : l ≠ [] := by
  cases es with
  | nil => simp [walkFrom] at h; simp [← h]
  | cons e es =>
    obtain ⟨w, hg⟩ := walkFrom_cons_step h
    obtain ⟨l', _, rfl⟩ := walkFrom_cons_some hg h
    simp

theorem walkFrom_head {v : Nat} {es : List Edge} {l : List Nat}
    (h : walkFrom v es = some l) : l.head? = some v := by
  cases es with
  | nil => simp [walkFrom] at h; simp [← h]
  | cons e es =>
    obtain ⟨w, hg⟩ := walkFrom_cons_step h
    obtain ⟨l', _, rfl⟩ := walkFrom_cons_some hg h
    simp

theorem walkFrom_mem_self {v : Nat} {es : List Edge} {l : List Nat}
    (h : walkFrom v es = some l) : v ∈ l := by
  have := walkFrom_head h
  cases l with
  | nil => exact absurd rfl (walkFrom_ne_nil h)
  | cons a t => simp at this; simp [this]

theorem walkFrom_length {es : List Edge} : ∀ {v : Nat} {l : List Nat},
    walkFrom v es = some l → l.length = es.length + 1 := by
  induction es with
  | nil => intro v l h; simp [walkFrom] at h; simp [← h]
  | cons e es ih =>
    intro v l h
    obtain ⟨w, hg⟩ := walkFrom_cons_step h
    obtain ⟨l', hw, rfl⟩ := walkFrom_cons_some hg h
    simp [ih hw]

/-- interiorWalk computes the dropLast of walkFrom. -/
theorem interiorWalk_eq_dropLast {es : List Edge} : ∀ {v : Nat} {l : List Nat},
    walkFrom v es = some l → interiorWalk v es = some l.dropLast := by
  induction es with
  | nil => intro v l h; simp [walkFrom] at h; simp [interiorWalk, ← h]
  | cons e es ih =>
    intro v l h
    obtain ⟨w, hg⟩ := walkFrom_cons_step h
    obtain ⟨l', hw, rfl⟩ := walkFrom_cons_some hg h
    unfold interiorWalk
    rw [hg]
    simp only [ih hw, Option.map_some']
    rw [List.dropLast_cons_of_ne_nil (walkFrom_ne_nil hw)]

/-- Every endpoint of an edge used in a successful walk occurs in the
visited vertex list. -/
theorem walkFrom_ends {es : List Edge} : ∀ {v : Nat} {l : List Nat},
    walkFrom v es = some l → ∀ e ∈ es, ∀ x, (e.first = x ∨ e.second = x) → x ∈ l := by
  induction es with
  | nil => intro v l _ e he; simp at he
  | cons e0 es ih =>
    intro v l h e he x hx
    obtain ⟨w, hg⟩ := walkFrom_cons_step h
    obtain ⟨l', hw, rfl⟩ := walkFrom_cons_some hg h
    rcases List.mem_cons.mp he with rfl | hmem
    · rcases Edge.get_other_ends hg hx with rfl | rfl
      · simp
      · simp [walkFrom_mem_self hw]
    · simp [ih hw e hmem x hx]

/-- Appending a final edge to a walk: the walk of `es ++ [e]` succeeds
exactly when the walk of `es` succeeds and `e` continues from its last
vertex. -/
theorem walkFrom_append_last {es : List Edge} : ∀ {v : Nat} {e : Edge} {l : List Nat},
    walkFrom v (es ++ [e]) = some l →
    ∃ l' z w, walkFrom v es = some l' ∧ l'.getLast? = some z ∧
      e.get_other z = some w ∧ l = l' ++ [w] := by
  induction es with
  | nil =>
    intro v e l h
    simp only [List.nil_append] at h
    obtain ⟨w, hg⟩ := walkFrom_cons_step h
    obtain ⟨l', hw, rfl⟩ := walkFrom_cons_some hg h
    simp [walkFrom] at hw
    exact ⟨[v], v, w, rfl, rfl, hg, by simp [← hw]⟩
  | cons e0 es ih =>
    intro v e l h
    rw [List.cons_append] at h
    obtain ⟨w, hg⟩ := walkFrom_cons_step h
    obtain ⟨l0, hw, rfl⟩ := walkFrom_cons_some hg h
    obtain ⟨l', z, w', hwes, hlast, hstep, rfl⟩ := ih hw
    refine ⟨v :: l', z, w', ?_, ?_, hstep, by simp⟩
    · simp [walkFrom, hg, hwes]
    · cases l' with
      | nil => exact absurd rfl (walkFrom_ne_nil hwes)
      | cons a t => simpa [List.getLast?_cons] using hlast

/-- The loop of Snake.verify from graph.py: walks the body from `segment`,
failing (`none`) when the current segment was already seen or when
get_other raises; on success returns the final segment and the set of
visited segments (the Python `segments` set, as a list). -/
def verifyLoop : Nat → List Nat → List Edge → Option (Nat × List Nat)
  | seg, seen, [] => some (seg, seen)
  | seg, seen, e :: es =>
    if seg ∈ seen then none
    else
      match e.get_other seg with
      | none => none
      | some nxt => verifyLoop nxt (seg :: seen) es

/-- Snake from graph.py: head vertex, body edge list (head to tail), tail
vertex, and the `_left_edge` bookkeeping field used by update_types. -/
structure Snake where
  head : Nat
  body : List Edge
  tail : Nat
  left_edge : Option Edge := none
deriving DecidableEq

/-- Snake.verify from graph.py: the body must walk from head to tail
without revisiting a vertex, and the tail must not occur among the interior
segments. -/
def Snake.verify (s : Snake) : Bool :=
  match verifyLoop s.head [] s.body with
  | none => false
  | some (fin, seen) => decide (fin = s.tail) && decide (s.tail ∉ seen)

/-- Snake.get_segments from graph.py: appends each visited segment before
stepping, then appends `self.tail` (not the walked final vertex); `none`
models the ValueError that get_other raises on a malformed body. -/
def Snake.get_segments (s : Snake) : Option (List Nat) :=
  (interiorWalk s.head s.body).map (· ++ [s.tail])

theorem verifyLoop_sound {es : List Edge} :
    ∀ {seg fin : Nat} {seen seen' : List Nat},
    verifyLoop seg seen es = some (fin, seen') →
    ∃ l, walkFrom seg es = some l ∧ l.getLast? = some fin ∧
      l.dropLast.Nodup ∧ (∀ x ∈ l.dropLast, x ∉ seen) ∧
      seen' = l.dropLast.reverse ++ seen := by
  induction es with
  | nil =>
    intro seg fin seen seen' h
    simp [verifyLoop] at h
    exact ⟨[seg], by simp [walkFrom], by simp [h.1], by simp, by simp, by simp [h.2]⟩
  | cons e es ih =>
    intro seg fin seen seen' h
    unfold verifyLoop at h
    by_cases hseen : seg ∈ seen
    · simp [hseen] at h
    · rw [if_neg hseen] at h
      cases hg : e.get_other seg with
      | none => rw [hg] at h; simp at h
      | some nxt =>
        rw [hg] at h
        obtain ⟨l', hw, hlast, hnd, hmem, hseen'⟩ := ih h
        have hne : l' ≠ [] := walkFrom_ne_nil hw
        refine ⟨seg :: l', by simp [walkFrom, hg, hw], ?_, ?_, ?_, ?_⟩
        · cases l' with
          | nil => exact absurd rfl hne
          | cons a t => simpa [List.getLast?_cons] using hlast
        · rw [List.dropLast_cons_of_ne_nil hne]
          refine List.Nodup.cons ?_ hnd
          intro hc
          exact (hmem seg hc) (List.mem_cons_self seg seen)
        · rw [List.dropLast_cons_of_ne_nil hne]
          intro x hx
          rcases List.mem_cons.mp hx with rfl | hx'
          · exact hseen
          · exact fun hc => (hmem x hx') (List.mem_cons_of_mem _ hc)
        · rw [List.dropLast_cons_of_ne_nil hne, hseen']
          simp

/-- Soundness of Snake.verify: a verified snake's body walks from head to
tail and visits pairwise-distinct vertices. -/
theorem Snake.verify_sound {s : Snake} (h : s.verify = true) :
    ∃ l, walkFrom s.head s.body = some l ∧ l.Nodup ∧ l.getLast? = some s.tail := by
  unfold Snake.verify at h
  cases hl : verifyLoop s.head [] s.body with
  | none => rw [hl] at h; simp at h
  | some p =>
    obtain ⟨fin, seen⟩ := p
    rw [hl] at h
    simp at h
    obtain ⟨rfl, htail⟩ := h
    obtain ⟨l, hw, hlast, hnd, _, hseen⟩ := verifyLoop_sound hl
    have hne : l ≠ [] := walkFrom_ne_nil hw
    have htail' : s.tail ∉ l.dropLast := by
      intro hc
      exact htail (by rw [hseen]; simp [hc])
    refine ⟨l, hw, ?_, hlast⟩
    have hgl : l.getLast hne = s.tail := by
      have := List.getLast?_eq_getLast l hne
      rw [this] at hlast
      exact Option.some.inj hlast
    have hdecomp : l.dropLast ++ [s.tail] = l := by
      rw [← hgl]; exact List.dropLast_concat_getLast hne
    rw [← hdecomp]
    simp [List.nodup_append, hnd]
    exact htail'

/-- A verified snake's get_segments is exactly its walk vertex list. -/
theorem Snake.get_segments_of_walk {s : Snake} {l : List Nat}
    (hw : walkFrom s.head s.body = some l) (hlast : l.getLast? = some s.tail) :
    s.get_segments = some l := by
  unfold Snake.get_segments
  rw [interiorWalk_eq_dropLast hw]
  have hne : l ≠ [] := walkFrom_ne_nil hw
  have hgl : l.getLast hne = s.tail := by
    have := List.getLast?_eq_getLast l hne
    rw [this] at hlast
    exact Option.some.inj hlast
  simp
  rw [← hgl]
  exact List.dropLast_concat_getLast hne

/-- Graph from graph.py: a set of vertex ids and a set of canonical Edge
objects, modelled as lists. -/
structure Graph where
  vertices : List Nat
  edges : List Edge

/-- Graph.verify from graph.py: both endpoints of every edge are vertices
of the graph and no edge is a self-loop. -/
def Graph.verify (g : Graph) : Bool :=
  g.edges.all fun e =>
    decide (e.first ∈ g.vertices) && decide (e.second ∈ g.vertices) &&
      decide (e.first ≠ e.second)

/-- Whether an edge was registered in `_edge_dict` under the key `(a, b)`:
a directed edge only under `(first, second)`, an undirected edge under both
orientations. -/
def edgeConnects (e : Edge) (a b : Nat) : Bool :=
  (decide (e.first = a) && decide (e.second = b)) ||
    (!e.directed && decide (e.first = b) && decide (e.second = a))

/-- Graph.get_edge from graph.py: `self._edge_dict[first].get(second)`.
The outer dict has exactly the graph's vertices as keys, so a lookup with a
non-vertex first argument raises KeyError; the inner `.get` returns the
canonical stored edge or None.  Later insertions overwrite earlier ones,
hence the last matching edge in insertion order is returned. -/
def Graph.get_edge (g : Graph) (a b : Nat) : Except GameError (Option Edge) :=
  if a ∈ g.vertices then
    .ok ((g.edges.filter fun e => edgeConnects e a b).getLast?)
  else .error .keyError

/-- The full game state: the graph, the mutable vertex- and edge-type maps
(Python stores these on the Vertex/Edge objects), the snake, the apple set,
and invocation counters for the two externally registered callback slots
(`apple_callback`, fired by GameGraph._on_eaten_apple, and `move_callback`,
the before-move slot registered by Score). -/
structure GameState where
  vertices : List Nat
  edges : List Edge
  vt : Nat → VertexType
  et : Edge → EdgeType
  snake : Snake
  apples : List Nat
  appleFired : Nat
  moveFired : Nat

instance : Inhabited GameState :=
  ⟨⟨[], [], fun _ => .NONE, fun _ => .NONE, ⟨0, [], 0, none⟩, [], 0, 0⟩⟩

def GameState.toGraph (st : GameState) : Graph := ⟨st.vertices, st.edges⟩

/-- GameGraph.get_snakes_next_edges from graph.py: the edges incident with
the snake's head whose type is not SNAKE. -/
def get_snakes_next_edges (st : GameState) : List Edge :=
  (st.edges.filter fun e =>
      decide (e.first = st.snake.head) || decide (e.second = st.snake.head)).filter
    fun e => !decide (st.et e = EdgeType.SNAKE)

/-- Snake.update_types from graph.py: set every segment vertex and body
edge to type SNAKE; if a left edge is recorded, set the vacated vertex
(`left_edge.get_other(self.tail)`) and the left edge itself to EMPTY. -/
def update_types (st : GameState) : GameState × Option GameError :=
  match st.snake.get_segments with
  | none => (st, some .valueError)
  | some segs =>
    let st1 := { st with
      vt := fun v => if v ∈ segs then VertexType.SNAKE else st.vt v,
      et := fun e => if e ∈ st.snake.body then EdgeType.SNAKE else st.et e }
    match st.snake.left_edge with
    | none => (st1, none)
    | some le =>
      match le.get_other st.snake.tail with
      | none => (st1, some .valueError)
      | some lv =>
        ({ st1 with
            vt := fun v => if v = lv then VertexType.EMPTY else
              if v ∈ segs then VertexType.SNAKE else st.vt v,
            et := fun e => if e = le then EdgeType.EMPTY else
              if e ∈ st.snake.body then EdgeType.SNAKE else st.et e }, none)

/-- GameGraph.move_snake / Snake.move from graph.py, with the snake's
apple callback inlined as GameGraph._on_eaten_apple (remove the vertex
from `apples` — KeyError if absent — then fire the external apple
observer).  Death raises before any mutation; the grow branch prepends the
edge and clears the left edge; the slide branch records the left edge,
prepends the edge dropping the last, and moves the tail; both end with
update_types. -/
def move_snake (st : GameState) (edge : Edge) : GameState × Option GameError :=
  match edge.get_other st.snake.head with
  | none => (st, some .valueError)
  | some next =>
    if st.vt next = VertexType.WALL ∨ st.vt next = VertexType.SNAKE then
      (st, some .snakeDied)
    else
      let st1 := { st with snake := { st.snake with head := next } }
      if st.vt next = VertexType.APPLE then
        if next ∈ st1.apples then
          let st2 := { st1 with
            apples := st1.apples.filter fun v => v ≠ next,
            appleFired := st1.appleFired + 1 }
          update_types { st2 with snake := { st2.snake with
            left_edge := none, body := edge :: st2.snake.body } }
        else (st1, some .keyError)
      else
        match st1.snake.body.getLast? with
        | none => (st1, some .indexError)
        | some le =>
          let st2 := { st1 with snake := { st1.snake with
            left_edge := some le, body := edge :: st1.snake.body.dropLast } }
          match le.get_other st2.snake.tail with
          | none => (st2, some .valueError)
          | some newTail =>
            update_types { st2 with snake := { st2.snake with tail := newTail } }

/-- The list of vertices currently typed EMPTY
(GameGraph._get_empty_vertices). -/
def emptyVerticesList (st : GameState) : List Nat :=
  st.vertices.filter fun v => decide (st.vt v = VertexType.EMPTY)

/-- GameGraph.generate_apple from graph.py: pick a random EMPTY vertex,
set its type to APPLE and add it to `apples`; `random.randrange(0)` raises
ValueError when no EMPTY vertex exists.  The random draw is modelled by an
oracle index reduced modulo the number of candidates. -/
def generate_apple (st : GameState) (idx : Nat) : GameState × Option GameError :=
  match emptyVerticesList st with
  | [] => (st, some .valueError)
  | x :: xs =>
    let apple := (x :: xs).getD (idx % (x :: xs).length) x
    ({ st with
        vt := fun v => if v = apple then VertexType.APPLE else st.vt v,
        apples := if apple ∈ st.apples then st.apples else apple :: st.apples },
      none)

/-- GameGraph.generate_apple_if_missing from graph.py. -/
def generate_apple_if_missing (st : GameState) (idx : Nat) :
    GameState × Option GameError :=
  if st.apples.length = 0 then generate_apple st idx else (st, none)

/-- The edge-collection loop of Snake.from_vertices: resolve each
consecutive pair through Graph.get_edge.  A missing edge puts None into the
body, on which Snake.verify later calls get_other and raises an uncaught
AttributeError; this is modelled by failing with `attributeError` at the
missing pair. -/
def fromVerticesBody (g : Graph) : Nat → List Nat → Except GameError (List Edge)
  | _, [] => .ok []
  | first, second :: rest =>
    match g.get_edge first second with
    | .error err => .error err
    | .ok none => .error .attributeError
    | .ok (some e) => (fromVerticesBody g second rest).map (e :: ·)

/-- Snake.from_vertices together with the Snake constructor's verify check
(graph.py): fewer than two vertices raise ValueError, a failed verify
raises ValueError, and the constructed snake has the first vertex as head
and the last as tail.  update_types runs at the GameGraph level in
mkGameGraph. -/
def Snake.from_vertices (g : Graph) (sv : List Nat) : Except GameError Snake :=
  if sv.length < 2 then .error .valueError
  else
    match sv with
    | [] => .error .valueError
    | head :: rest =>
      match fromVerticesBody g head rest with
      | .error err => .error err
      | .ok body =>
        let s : Snake := ⟨head, body, rest.getLast?.getD head, none⟩
        if s.verify then .ok s else .error .valueError

/-- GameGraph.__init__ from graph.py: verify the graph, start with an
empty apple set, build the snake from the given vertices (Snake.__init__
verifies it and runs update_types with no left edge). -/
def mkGameGraph (vertices : List Nat) (edges : List Edge)
    (vt0 : Nat → VertexType) (et0 : Edge → EdgeType) (sv : List Nat) :
    Except GameError GameState :=
  let g : Graph := ⟨vertices, edges⟩
  if g.verify = false then .error .valueError
  else
    match Snake.from_vertices g sv with
    | .error err => .error err
    | .ok s =>
      let st0 : GameState := ⟨vertices, edges, vt0, et0, s, [], 0, 0⟩
      match update_types st0 with
      | (st1, none) => .ok st1
      | (_, some err) => .error err

/-- One successful game-mutating step: a completed move_snake,
generate_apple or generate_apple_if_missing call. -/
def Step (st st' : GameState) : Prop :=
  (∃ e, move_snake st e = (st', none)) ∨
    (∃ idx, generate_apple st idx = (st', none)) ∨
    (∃ idx, generate_apple_if_missing st idx = (st', none))

/-- Reachability of game states through successful engine operations. -/
def ReachGG : GameState → GameState → Prop := Relation.ReflTransGen Step

/-- The apples part of the GameGraph data-model invariant: `apples` is
exactly the set of APPLE-typed vertices. -/
def applesExact (st : GameState) : Prop :=
  (∀ v ∈ st.apples, st.vt v = VertexType.APPLE) ∧
    (∀ v ∈ st.vertices, st.vt v = VertexType.APPLE → v ∈ st.apples)

/-- The inductive invariant maintained by the engine: the snake's body
walks head to tail visiting pairwise-distinct vertices, every vertex on
the walk is typed SNAKE, and the apples set is exact. -/
def GameInv (st : GameState) : Prop :=
  (∃ l, walkFrom st.snake.head st.snake.body = some l ∧ l.Nodup ∧
      l.getLast? = some st.snake.tail ∧ ∀ v ∈ l, st.vt v = VertexType.SNAKE) ∧
    applesExact st

theorem dropLast_append_of_getLast? {α : Type} {l : List α} {t : α}
    (h : l.getLast? = some t) : l.dropLast ++ [t] = l := by
  have hne : l ≠ [] := by rintro rfl; simp at h
  have hgl : l.getLast hne = t := by
    have := List.getLast?_eq_getLast l hne
    rw [this] at h
    exact Option.some.inj h
  rw [← hgl]
  exact List.dropLast_concat_getLast hne

theorem mem_of_getLast?_eq {α : Type} {l : List α} {t : α}
    (h : l.getLast? = some t) : t ∈ l := by
  rw [← dropLast_append_of_getLast? h]
  simp

theorem head_ne_last_of_nodup {l : List Nat} {h t : Nat} (hnd : l.Nodup)
    (hh : l.head? = some h) (ht : l.getLast? = some t) (hlen : 2 ≤ l.length) :
    h ≠ t := by
  cases l with
  | nil => simp at hh
  | cons a rest =>
    simp at hh
    subst hh
    cases rest with
    | nil => simp at hlen
    | cons b r =>
      rw [List.getLast?_cons_cons] at ht
      have htm : t ∈ b :: r := mem_of_getLast?_eq ht
      intro hc
      subst hc
      exact (List.nodup_cons.mp hnd).1 htm

/-- Complete description of a successful grow move (next vertex typed
APPLE and present in the apple set): the edge is prepended, the tail is
unchanged, the vertex is removed from `apples`, the observer counter
increments, and the types of exactly the new segments and body edges are
set to SNAKE. -/
theorem grow_post {st : GameState} {edge : Edge} {next : Nat} {l : List Nat}
    (hw : walkFrom st.snake.head st.snake.body = some l)
    (hlast : l.getLast? = some st.snake.tail)
    (hi : edge.get_other st.snake.head = some next)
    (ha : st.vt next = VertexType.APPLE)
    (hm : next ∈ st.apples) :
    move_snake st edge =
      ({ st with
          snake := ⟨next, edge :: st.snake.body, st.snake.tail, none⟩,
          apples := st.apples.filter fun v => v ≠ next,
          appleFired := st.appleFired + 1,
          vt := fun v => if v ∈ next :: l then VertexType.SNAKE else st.vt v,
          et := fun e' => if e' ∈ edge :: st.snake.body then EdgeType.SNAKE
            else st.et e' }, none) := by
  have hsymm : edge.get_other next = some st.snake.head := Edge.get_other_symm hi
  have hseg : (Snake.mk next (edge :: st.snake.body) st.snake.tail none).get_segments
      = some (next :: l) := by
    unfold Snake.get_segments
    show (interiorWalk next (edge :: st.snake.body)).map (· ++ [st.snake.tail])
      = some (next :: l)
    unfold interiorWalk
    rw [hsymm]
    simp only [interiorWalk_eq_dropLast hw, Option.map_some', List.cons_append,
      dropLast_append_of_getLast? hlast]
  unfold move_snake
  rw [hi]
  simp only [ha, reduceIte]
  rw [if_neg (by simp)]
  simp only [hm, if_pos, if_true, reduceIte]
  unfold update_types
  simp only [hseg]

/-- Complete description of a successful slide move (next vertex not typed
WALL, SNAKE or APPLE): the last body edge becomes the left edge, the new
edge is prepended while the last is dropped, the tail moves to the other
endpoint of the left edge, the old tail and the left edge are set to
EMPTY, and the new segments and body edges are set to SNAKE. -/
theorem slide_post {st : GameState} {edge : Edge} {next : Nat} {l : List Nat}
    (hw : walkFrom st.snake.head st.snake.body = some l)
    (hnd : l.Nodup)
    (hlast : l.getLast? = some st.snake.tail)
    (hb : st.snake.body ≠ [])
    (hi : edge.get_other st.snake.head = some next)
    (hnl : next ∉ l)
    (hwall : st.vt next ≠ VertexType.WALL)
    (hsnk : st.vt next ≠ VertexType.SNAKE)
    (happ : st.vt next ≠ VertexType.APPLE) :
    ∃ le l' nt,
      st.snake.body.getLast? = some le ∧
      walkFrom st.snake.head st.snake.body.dropLast = some l' ∧
      l = l' ++ [st.snake.tail] ∧
      l'.getLast? = some nt ∧
      le.get_other st.snake.tail = some nt ∧
      walkFrom next (edge :: st.snake.body.dropLast) = some (next :: l') ∧
      (next :: l').Nodup ∧
      (next :: l').getLast? = some nt ∧
      st.snake.tail ∉ next :: l' ∧
      le ∉ edge :: st.snake.body.dropLast ∧
      move_snake st edge =
        ({ st with
            snake := ⟨next, edge :: st.snake.body.dropLast, nt, some le⟩,
            vt := fun v => if v = st.snake.tail then VertexType.EMPTY else
              if v ∈ next :: l' then VertexType.SNAKE else st.vt v,
            et := fun e' => if e' = le then EdgeType.EMPTY else
              if e' ∈ edge :: st.snake.body.dropLast then EdgeType.SNAKE
              else st.et e' }, none) := by
  cases hgl : st.snake.body.getLast? with
  | none => exact absurd (List.getLast?_eq_none.mp hgl) hb
  | some le =>
  have hbody : st.snake.body.dropLast ++ [le] = st.snake.body :=
    dropLast_append_of_getLast? hgl
  rw [← hbody] at hw
  obtain ⟨l', z, w, hw', hlast', hstep, rfl⟩ := walkFrom_append_last hw
  have hwtail : w = st.snake.tail := by
    rw [List.getLast?_concat] at hlast
    exact Option.some.inj hlast
  subst hwtail
  have hne' : l' ≠ [] := walkFrom_ne_nil hw'
  have hnd' : l'.Nodup := (List.nodup_append.mp hnd).1
  have htl' : st.snake.tail ∉ l' := by
    intro hc
    exact (List.nodup_append.mp hnd).2.2 hc (by simp)
  have hnl' : next ∉ l' := fun hc => hnl (by simp [hc])
  have hntl : next ≠ st.snake.tail := fun hc => hnl (by simp [hc])
  have hwalk3 : walkFrom next (edge :: st.snake.body.dropLast) = some (next :: l') := by
    unfold walkFrom
    rw [Edge.get_other_symm hi]
    simp only [hw', Option.map_some']
  have hzl' : z ∈ l' := mem_of_getLast?_eq hlast'
  have hzl : z ∈ l' ++ [st.snake.tail] := by simp [hzl']
  have hle_edge : le ≠ edge := by
    intro hc
    subst hc
    have hends : le.first = next ∨ le.second = next := by
      rcases Edge.get_other_cases hi with ⟨h1, h2⟩ | ⟨h1, h2⟩
      · exact Or.inr h2
      · exact Or.inl h1
    rcases Edge.get_other_ends hstep hends with rfl | rfl
    · exact hnl hzl
    · exact hnl (by simp)
  have hle_dl : le ∉ st.snake.body.dropLast := by
    intro hc
    have hends : le.first = st.snake.tail ∨ le.second = st.snake.tail := by
      rcases Edge.get_other_cases hstep with ⟨h1, h2⟩ | ⟨h1, h2⟩
      · exact Or.inr h2
      · exact Or.inl h1
    have := walkFrom_ends hw' le hc st.snake.tail hends
    exact htl' this
  have hseg3 : (Snake.mk next (edge :: st.snake.body.dropLast) z (some le)).get_segments
      = some (next :: l') := by
    unfold Snake.get_segments
    show (interiorWalk next (edge :: st.snake.body.dropLast)).map (· ++ [z])
      = some (next :: l')
    unfold interiorWalk
    rw [Edge.get_other_symm hi]
    simp only [interiorWalk_eq_dropLast hw', Option.map_some', List.cons_append,
      dropLast_append_of_getLast? hlast']
  refine ⟨le, l', z, rfl, hw', rfl, hlast', Edge.get_other_symm hstep, hwalk3,
    List.Nodup.cons hnl' hnd', ?_, ?_, ?_, ?_⟩
  · cases l' with
    | nil => exact absurd rfl hne'
    | cons a t => simpa [List.getLast?_cons] using hlast'
  · intro hc
    rcases List.mem_cons.mp hc with hc1 | hc2
    · exact hntl hc1.symm
    · exact htl' hc2
  · intro hc
    rcases List.mem_cons.mp hc with hc1 | hc2
    · exact hle_edge hc1
    · exact hle_dl hc2
  · simp only [move_snake, hi]
    rw [if_neg (by simp [hwall, hsnk])]
    rw [if_neg happ]
    simp only [hgl]
    simp only [Edge.get_other_symm hstep]
    simp only [update_types, hseg3]
    simp only [hstep]

/-- Moving onto a WALL or SNAKE vertex raises the death exception before
any mutation: the returned state is the input state. -/
theorem die_post {st : GameState} {edge : Edge} {next : Nat}
    (hi : edge.get_other st.snake.head = some next)
    (h : st.vt next = VertexType.WALL ∨ st.vt next = VertexType.SNAKE) :
    move_snake st edge = (st, some GameError.snakeDied) := by
  simp only [move_snake, hi]
  rw [if_pos h]

theorem move_keyError {st : GameState} {edge : Edge} {next : Nat}
    (hi : edge.get_other st.snake.head = some next)
    (hwall : st.vt next ≠ VertexType.WALL)
    (hsnk : st.vt next ≠ VertexType.SNAKE)
    (happ : st.vt next = VertexType.APPLE)
    (hm : next ∉ st.apples) :
    ∃ s, move_snake st edge = (s, some GameError.keyError) := by
  simp only [move_snake, hi]
  rw [if_neg (by simp [hwall, hsnk])]
  rw [if_pos happ]
  exact ⟨_, by rw [if_neg hm]⟩

theorem move_indexError {st : GameState} {edge : Edge} {next : Nat}
    (hi : edge.get_other st.snake.head = some next)
    (hwall : st.vt next ≠ VertexType.WALL)
    (hsnk : st.vt next ≠ VertexType.SNAKE)
    (happ : st.vt next ≠ VertexType.APPLE)
    (hb : st.snake.body = []) :
    ∃ s, move_snake st edge = (s, some GameError.indexError) := by
  simp only [move_snake, hi]
  rw [if_neg (by simp [hwall, hsnk])]
  rw [if_neg happ]
  rw [hb]
  exact ⟨_, rfl⟩

theorem getD_mem_of_lt {α : Type} {l : List α} {i : Nat} {d : α} (h : i < l.length) :
    l.getD i d ∈ l := by
  rw [List.getD_eq_getElem l d h]
  exact List.getElem_mem h

/-- A successful move preserves the engine invariant. -/
theorem gameInv_move {st st' : GameState} {e : Edge} (hinv : GameInv st)
    (hstep : move_snake st e = (st', none)) : GameInv st' := by
  obtain ⟨⟨l, hw, hnd, hlast, hty⟩, hfwd, hrev⟩ := hinv
  cases hi : e.get_other st.snake.head with
  | none => rw [show move_snake st e = (st, some GameError.valueError) from by
      simp only [move_snake, hi]] at hstep; simp at hstep
  | some next =>
    by_cases hdead : st.vt next = VertexType.WALL ∨ st.vt next = VertexType.SNAKE
    · rw [die_post hi hdead] at hstep; simp at hstep
    · push_neg at hdead
      obtain ⟨hwall, hsnk⟩ := hdead
      by_cases happ : st.vt next = VertexType.APPLE
      · by_cases hm : next ∈ st.apples
        · rw [grow_post hw hlast hi happ hm] at hstep
          obtain ⟨rfl, -⟩ := Prod.mk.injEq .. ▸ hstep
          have hnl : next ∉ l := fun hc => by
            rw [hty next hc] at happ; exact absurd happ (by simp)
          have hwalk3 : walkFrom next (e :: st.snake.body) = some (next :: l) := by
            unfold walkFrom
            rw [Edge.get_other_symm hi]
            simp only [hw, Option.map_some']
          refine ⟨⟨next :: l, hwalk3, List.Nodup.cons hnl hnd, ?_, ?_⟩, ?_, ?_⟩
          · cases l with
            | nil => exact absurd rfl (walkFrom_ne_nil hw)
            | cons a t => simpa [List.getLast?_cons] using hlast
          · intro v hv
            dsimp only
            simp only [if_pos hv]
          · intro v hv
            dsimp only at hv ⊢
            simp only [List.mem_filter] at hv
            obtain ⟨hv1, hv2⟩ := hv
            have hvt := hfwd v hv1
            have hvnl : v ∉ next :: l := by
              intro hc
              rcases List.mem_cons.mp hc with rfl | hc2
              · simp at hv2
              · rw [hty v hc2] at hvt; exact absurd hvt (by simp)
            simp only [if_neg hvnl]
            exact hvt
          · intro v hvert hvt
            dsimp only at hvert hvt ⊢
            by_cases hvnl : v ∈ next :: l
            · rw [if_pos hvnl] at hvt; exact absurd hvt (by simp)
            · rw [if_neg hvnl] at hvt
              have := hrev v hvert hvt
              simp only [List.mem_filter]
              refine ⟨this, by simp; rintro rfl; exact hvnl (by simp)⟩
        · obtain ⟨s, hks⟩ := move_keyError hi hwall hsnk happ hm
          rw [hks] at hstep; simp at hstep
      · have hnl : next ∉ l := fun hc => hsnk (hty next hc)
        by_cases hb : st.snake.body = []
        · obtain ⟨s, hks⟩ := move_indexError hi hwall hsnk happ hb
          rw [hks] at hstep; simp at hstep
        · obtain ⟨le, l', nt, hgl, hw', hldec, hlast', hgo, hwalk3, hnd3, hlast3,
            htl3, hle3, hmv⟩ := slide_post hw hnd hlast hb hi hnl hwall hsnk happ
          rw [hmv] at hstep
          obtain ⟨rfl, -⟩ := Prod.mk.injEq .. ▸ hstep
          refine ⟨⟨next :: l', hwalk3, hnd3, hlast3, ?_⟩, ?_, ?_⟩
          · intro v hv
            dsimp only
            have hvt : v ≠ st.snake.tail := fun hc => htl3 (hc ▸ hv)
            simp only [if_neg hvt, if_pos hv]
          · intro v hv
            dsimp only at hv ⊢
            have hvt := hfwd v hv
            have hv1 : v ≠ st.snake.tail := by
              rintro rfl
              have : st.snake.tail ∈ l := by
                rw [hldec]; simp
              rw [hty _ this] at hvt; exact absurd hvt (by simp)
            have hv2 : v ∉ next :: l' := by
              intro hc
              rcases List.mem_cons.mp hc with rfl | hc2
              · exact happ hvt
              · have : v ∈ l := by rw [hldec]; simp [hc2]
                rw [hty v this] at hvt; exact absurd hvt (by simp)
            simp only [if_neg hv1, if_neg hv2]
            exact hvt
          · intro v hvert hvt
            dsimp only at hvert hvt ⊢
            by_cases hv1 : v = st.snake.tail
            · rw [if_pos hv1] at hvt; exact absurd hvt (by simp)
            · rw [if_neg hv1] at hvt
              by_cases hv2 : v ∈ next :: l'
              · rw [if_pos hv2] at hvt; exact absurd hvt (by simp)
              · rw [if_neg hv2] at hvt
                exact hrev v hvert hvt

/-- A successful generate_apple preserves the engine invariant. -/
theorem gameInv_generate {st st' : GameState} {idx : Nat} (hinv : GameInv st)
    (hstep : generate_apple st idx = (st', none)) : GameInv st' := by
  obtain ⟨⟨l, hw, hnd, hlast, hty⟩, hfwd, hrev⟩ := hinv
  unfold generate_apple at hstep
  cases hel : emptyVerticesList st with
  | nil => rw [hel] at hstep; simp at hstep
  | cons x xs =>
    rw [hel] at hstep
    simp only at hstep
    obtain ⟨rfl, -⟩ := Prod.mk.injEq .. ▸ hstep
    set a := (x :: xs).getD (idx % (x :: xs).length) x with ha
    have hmem : a ∈ x :: xs := getD_mem_of_lt (Nat.mod_lt _ (by simp))
    have hmem' : a ∈ emptyVerticesList st := by rw [hel]; exact hmem
    have hemp : st.vt a = VertexType.EMPTY := by
      unfold emptyVerticesList at hmem'
      simpa using (List.mem_filter.mp hmem').2
    have hnap : a ∉ st.apples := fun hc => by
      rw [hfwd a hc] at hemp; exact absurd hemp (by simp)
    have hnl : a ∉ l := fun hc => by
      rw [hty a hc] at hemp; exact absurd hemp (by simp)
    refine ⟨⟨l, hw, hnd, hlast, ?_⟩, ?_, ?_⟩
    · intro v hv
      dsimp only
      rw [if_neg (show v ≠ a by rintro rfl; exact hnl hv)]
      exact hty v hv
    · intro v hv
      dsimp only at hv ⊢
      rw [if_neg hnap] at hv
      rcases List.mem_cons.mp hv with rfl | hv2
      · rw [if_pos rfl]
      · rw [if_neg (show v ≠ a by rintro rfl; exact hnap hv2)]
        exact hfwd v hv2
    · intro v hvert hvt
      dsimp only at hvert hvt ⊢
      rw [if_neg hnap]
      by_cases hva : v = a
      · exact hva ▸ List.mem_cons_self a st.apples
      · rw [if_neg hva] at hvt
        exact List.mem_cons_of_mem a (hrev v hvert hvt)

/-- A successful generate_apple_if_missing preserves the engine
invariant. -/
theorem gameInv_generate_if_missing {st st' : GameState} {idx : Nat}
    (hinv : GameInv st)
    (hstep : generate_apple_if_missing st idx = (st', none)) : GameInv st' := by
  unfold generate_apple_if_missing at hstep
  by_cases h : st.apples.length = 0
  · rw [if_pos h] at hstep
    exact gameInv_generate hinv hstep
  · rw [if_neg h] at hstep
    obtain ⟨rfl, -⟩ := Prod.mk.injEq .. ▸ hstep
    exact hinv

/-- Every successful step preserves the engine invariant. -/
theorem gameInv_step {st st' : GameState} (hinv : GameInv st)
    (hstep : Step st st') : GameInv st' := by
  rcases hstep with ⟨e, he⟩ | ⟨idx, hg⟩ | ⟨idx, hg⟩
  · exact gameInv_move hinv he
  · exact gameInv_generate hinv hg
  · exact gameInv_generate_if_missing hinv hg

/-- The engine invariant propagates along reachability. -/
theorem gameInv_reach {st st' : GameState} (hinv : GameInv st)
    (hr : ReachGG st st') : GameInv st' := by
  induction hr with
  | refl => exact hinv
  | tail _ hstep ih => exact gameInv_step ih hstep

theorem from_vertices_ok {g : Graph} {sv : List Nat} {s : Snake}
    (h : Snake.from_vertices g sv = Except.ok s) :
    s.verify = true ∧ s.left_edge = none := by
  unfold Snake.from_vertices at h
  by_cases hlen : sv.length < 2
  · rw [if_pos hlen] at h; simp at h
  · rw [if_neg hlen] at h
    cases sv with
    | nil => simp at h
    | cons head rest =>
      dsimp only at h
      cases hb : fromVerticesBody g head rest with
      | error err => rw [hb] at h; simp at h
      | ok body =>
        rw [hb] at h
        dsimp only at h
        by_cases hv : (Snake.mk head body (rest.getLast?.getD head) none).verify = true
        · rw [if_pos hv] at h
          obtain rfl := Except.ok.inj h
          exact ⟨hv, rfl⟩
        · rw [if_neg hv] at h; simp at h

/-- The state built by mkGameGraph satisfies the engine invariant provided
no vertex is typed APPLE at construction time. -/
theorem gameInv_init {V : List Nat} {E : List Edge} {vt0 : Nat → VertexType}
    {et0 : Edge → EdgeType} {sv : List Nat} {st0 : GameState}
    (hmk : mkGameGraph V E vt0 et0 sv = Except.ok st0)
    (hna : ∀ v ∈ V, vt0 v ≠ VertexType.APPLE) :
    GameInv st0 ∧ st0.vertices = V ∧ st0.apples = [] := by
  unfold mkGameGraph at hmk
  by_cases hg : (Graph.mk V E).verify = false
  · rw [if_pos hg] at hmk; simp at hmk
  · rw [if_neg hg] at hmk
    cases hs : Snake.from_vertices ⟨V, E⟩ sv with
    | error err => rw [hs] at hmk; simp at hmk
    | ok s =>
      rw [hs] at hmk
      obtain ⟨hver, hle⟩ := from_vertices_ok hs
      obtain ⟨l, hw, hnd, hlast⟩ := Snake.verify_sound hver
      have hseg : s.get_segments = some l := Snake.get_segments_of_walk hw hlast
      simp only at hmk
      unfold update_types at hmk
      dsimp only at hmk
      rw [hseg, hle] at hmk
      obtain rfl := Except.ok.inj hmk
      refine ⟨⟨⟨l, hw, hnd, hlast, ?_⟩, ?_, ?_⟩, rfl, rfl⟩
      · intro v hv
        dsimp only
        rw [if_pos hv]
      · intro v hv
        simp at hv
      · intro v hvert hvt
        dsimp only at hvt
        by_cases hvl : v ∈ l
        · rw [if_pos hvl] at hvt; exact absurd hvt (by simp)
        · rw [if_neg hvl] at hvt
          exact absurd hvt (hna v hvert)

/-- RandomEdgeAlgorithm.choose_next_edge from algorithm.py:
`random.sample(snake_edges, 1)[0]`, which raises ValueError on an empty
population; the random draw is modelled by an oracle index. -/
def pickFrom (l : List Edge) (idx : Nat) : Except GameError Edge :=
  match l with
  | [] => .error .valueError
  | x :: xs => .ok ((x :: xs).getD (idx % (x :: xs).length) x)

/-- The candidate vertex list of _find_shortest_path: all vertices not
typed WALL or SNAKE, plus the snake's head. -/
def availList (st : GameState) : List Nat :=
  (st.vertices.filter fun v =>
      !decide (st.vt v = VertexType.WALL) && !decide (st.vt v = VertexType.SNAKE)) ++
    [st.snake.head]

/-- Adjacency of the subgraph induced on the available vertices.  The
networkx shadow graph built by _generate_nx_graph is undirected, so both
orientations of every edge are traversable. -/
def subAdj (st : GameState) (v : Nat) : List Nat :=
  st.edges.bind fun e =>
    if e.first ∈ availList st ∧ e.second ∈ availList st then
      if e.first = v then [e.second]
      else if e.second = v then [e.first]
      else []
    else []

/-- Insert the elements of the second list that are missing from the
first, preserving order. -/
def insertAll : List Nat → List Nat → List Nat
  | cur, [] => cur
  | cur, x :: xs => insertAll (if x ∈ cur then cur else cur ++ [x]) xs

/-- One step of the reachability closure: add every neighbour of the
current set. -/
def expandReach (adj : Nat → List Nat) (cur : List Nat) : List Nat :=
  insertAll cur (cur.bind adj)

/-- Vertices reachable from `src` in at most `n` adjacency steps. -/
def reachSet (adj : Nat → List Nat) (src : Nat) : Nat → List Nat
  | 0 => [src]
  | n + 1 => expandReach adj (reachSet adj src n)

theorem mem_insertAll : ∀ {l c : List Nat} {y : Nat},
    y ∈ insertAll c l ↔ y ∈ c ∨ y ∈ l := by
  intro l
  induction l with
  | nil => intro c y; simp [insertAll]
  | cons a as ih =>
    intro c y
    unfold insertAll
    rw [ih]
    by_cases hac : a ∈ c
    · rw [if_pos hac]
      constructor
      · rintro (h | h)
        · exact Or.inl h
        · exact Or.inr (List.mem_cons_of_mem a h)
      · rintro (h | h)
        · exact Or.inl h
        · rcases List.mem_cons.mp h with rfl | h2
          · exact Or.inl hac
          · exact Or.inr h2
    · rw [if_neg hac]
      constructor
      · rintro (h | h)
        · rcases List.mem_append.mp h with h1 | h1
          · exact Or.inl h1
          · simp at h1
            exact Or.inr (h1 ▸ List.mem_cons_self a as)
        · exact Or.inr (List.mem_cons_of_mem a h)
      · rintro (h | h)
        · exact Or.inl (List.mem_append_left _ h)
        · rcases List.mem_cons.mp h with rfl | h2
          · exact Or.inl (List.mem_append_right _ (by simp))
          · exact Or.inr h2

theorem insertAll_of_sub {l : List Nat} : ∀ {c : List Nat},
    (∀ x ∈ l, x ∈ c) → insertAll c l = c := by
  induction l with
  | nil => intro c _; rfl
  | cons a as ih =>
    intro c hsub
    unfold insertAll
    rw [if_pos (hsub a (by simp))]
    exact ih fun x hx => hsub x (List.mem_cons_of_mem a hx)

theorem src_mem_reachSet {adj : Nat → List Nat} {src : Nat} :
    ∀ n, src ∈ reachSet adj src n := by
  intro n
  induction n with
  | zero => simp [reachSet]
  | succ n ih =>
    unfold reachSet expandReach
    exact mem_insertAll.mpr (Or.inl ih)

theorem step_mem_reachSet {adj : Nat → List Nat} {src v w : Nat} {n : Nat}
    (hv : v ∈ reachSet adj src n) (hw : w ∈ adj v) :
    w ∈ reachSet adj src (n + 1) := by
  unfold reachSet expandReach
  exact mem_insertAll.mpr (Or.inr (List.mem_bind.mpr ⟨v, hv, hw⟩))

theorem expandReach_sub {adj : Nat → List Nat} {a b : List Nat}
    (hsub : ∀ x ∈ a, x ∈ b) : ∀ x ∈ expandReach adj a, x ∈ expandReach adj b := by
  intro x hx
  unfold expandReach at hx ⊢
  rcases mem_insertAll.mp hx with h | h
  · exact mem_insertAll.mpr (Or.inl (hsub x h))
  · obtain ⟨v, hv, hxv⟩ := List.mem_bind.mp h
    exact mem_insertAll.mpr (Or.inr (List.mem_bind.mpr ⟨v, hsub v hv, hxv⟩))

/-- Once the closure is stable at `n`, every reachSet is contained in the
stable set. -/
theorem reachSet_sub_of_stable {adj : Nat → List Nat} {src : Nat} {n : Nat}
    (hstable : expandReach adj (reachSet adj src n) = reachSet adj src n) :
    ∀ m, ∀ x ∈ reachSet adj src m, x ∈ reachSet adj src n := by
  intro m
  induction m with
  | zero =>
    intro x hx
    simp [reachSet] at hx
    exact hx ▸ src_mem_reachSet n
  | succ m ih =>
    intro x hx
    have : x ∈ expandReach adj (reachSet adj src n) :=
      expandReach_sub ih x hx
    rwa [hstable] at this

/-- A reversed walk that starts (at its final list element) at `src` and
steps through `adj`. -/
def revWalkOk (adj : Nat → List Nat) (src : Nat) : List Nat → Bool
  | [] => false
  | [v] => decide (v = src)
  | v :: w :: r => decide (v ∈ adj w) && revWalkOk adj src (w :: r)

theorem revWalk_mem_reachSet {adj : Nat → List Nat} {src : Nat} :
    ∀ {p : List Nat} {t : Nat}, revWalkOk adj src p = true → p.head? = some t →
    t ∈ reachSet adj src p.length := by
  intro p
  induction p with
  | nil => intro t h _; simp [revWalkOk] at h
  | cons v rest ih =>
    intro t h hh
    simp at hh
    subst hh
    cases rest with
    | nil =>
      simp [revWalkOk] at h
      subst h
      exact src_mem_reachSet 1
    | cons w r =>
      simp only [revWalkOk, Bool.and_eq_true, decide_eq_true_eq] at h
      obtain ⟨hadj, hwok⟩ := h
      have hw := ih hwok rfl
      exact step_mem_reachSet hw hadj

/-- The breadth-first search used to model nx.shortest_path: the queue
holds reversed walks; neighbours not yet visited are appended.  The fuel
only bounds the number of iterations. -/
def bfs (adj : Nat → List Nat) (tgt : Nat) :
    Nat → List (List Nat) → List Nat → Option (List Nat)
  | 0, _, _ => none
  | _ + 1, [], _ => none
  | fuel + 1, [] :: queue, visited => bfs adj tgt fuel queue visited
  | fuel + 1, (v :: p) :: queue, visited =>
    if v = tgt then some (v :: p).reverse
    else
      bfs adj tgt fuel
        (queue ++ ((adj v).filter fun w => !visited.contains w).map fun w => w :: v :: p)
        (visited ++ (adj v).filter fun w => !visited.contains w)

/-- Soundness of the search: whatever it returns was reached by a genuine
walk from `src`, ending at the target. -/
theorem bfs_sound {adj : Nat → List Nat} {src tgt : Nat} :
    ∀ {fuel : Nat} {queue : List (List Nat)} {visited : List Nat} {out : List Nat},
    (∀ p ∈ queue, revWalkOk adj src p = true) →
    bfs adj tgt fuel queue visited = some out →
    ∃ p, revWalkOk adj src p = true ∧ p.head? = some tgt := by
  intro fuel
  induction fuel with
  | zero => intro queue visited out _ h; simp [bfs] at h
  | succ fuel ih =>
    intro queue visited out hq h
    cases queue with
    | nil => simp [bfs] at h
    | cons p0 queue =>
      cases p0 with
      | nil =>
        have := hq [] (by simp)
        simp [revWalkOk] at this
      | cons v p =>
        unfold bfs at h
        by_cases hv : v = tgt
        · subst hv
          exact ⟨v :: p, hq (v :: p) (by simp), rfl⟩
        · rw [if_neg hv] at h
          refine ih ?_ h
          intro q hmemq
          rcases List.mem_append.mp hmemq with h1 | h1
          · exact hq q (List.mem_cons_of_mem _ h1)
          · obtain ⟨w, hw, rfl⟩ := List.mem_map.mp h1
            have hwadj : w ∈ adj v := (List.mem_filter.mp hw).1
            have hvp : revWalkOk adj src (v :: p) = true := hq (v :: p) (by simp)
            simp only [revWalkOk, Bool.and_eq_true, decide_eq_true_eq]
            exact ⟨hwadj, hvp⟩

/-- If the closure is stable at `n` and the target is outside it, the
search cannot succeed. -/
theorem bfs_none_of_unreachable {adj : Nat → List Nat} {src tgt : Nat} {n : Nat}
    (hstable : expandReach adj (reachSet adj src n) = reachSet adj src n)
    (hnr : tgt ∉ reachSet adj src n) (fuel : Nat) :
    bfs adj tgt fuel [[src]] [src] = none := by
  cases hb : bfs adj tgt fuel [[src]] [src] with
  | none => rfl
  | some out =>
    have hq : ∀ p ∈ [[src]], revWalkOk adj src p = true := by
      intro p hp
      simp at hp
      subst hp
      simp [revWalkOk]
    obtain ⟨p, hpok, hph⟩ := bfs_sound hq hb
    have := revWalk_mem_reachSet hpok hph
    exact absurd (reachSet_sub_of_stable hstable p.length tgt this) hnr

/-- The fuel given to the modelled search; its value is irrelevant to the
claims, which only rely on soundness. -/
def bfsFuel (st : GameState) : Nat :=
  (st.vertices.length + 1) * (st.edges.length + 1) * (st.edges.length + 1)

/-- ShortestPathAlgorithm._find_shortest_path from algorithm.py:
`list(self.graph.apples)[0]` raises an uncaught IndexError when the apple
set is empty; otherwise run the shortest-path search from the head to the
chosen apple on the induced subgraph, keep the path minus the head on
success, and catch NetworkXNoPath into an empty path. -/
def findShortestPath (st : GameState) : Except GameError (List Nat) :=
  match st.apples.head? with
  | none => .error .indexError
  | some apple =>
    match bfs (subAdj st) apple (bfsFuel st) [[st.snake.head]] [st.snake.head] with
    | some p => .ok (p.drop 1)
    | none => .ok []

/-- ShortestPathAlgorithm.choose_next_edge from algorithm.py: recompute
the path when the cache is empty; if a path remains, pop its first vertex
and resolve the edge through the graph's canonical lookup; otherwise fall
back to the random-edge algorithm.  Returns the updated cached path
together with the outcome. -/
def choose_next_edge (st : GameState) (path : List Nat) (idx : Nat) :
    List Nat × Except GameError (Option Edge) :=
  match (if path.length = 0 then findShortestPath st else .ok path) with
  | .error err => (path, .error err)
  | .ok p1 =>
    match p1 with
    | v :: rest =>
      match st.toGraph.get_edge st.snake.head v with
      | .error err => (rest, .error err)
      | .ok r => (rest, .ok r)
    | [] => ([], (pickFrom (get_snakes_next_edges st) idx).map some)

theorem update_types_moveFired (st : GameState) :
    (update_types st).1.moveFired = st.moveFired := by
  unfold update_types
  split
  · rfl
  · split
    · rfl
    · split
      · rfl
      · rfl

/-- Claim C3: for every edge incident to the head whose other endpoint is
typed WALL or SNAKE, move raises the death exception and returns the
pre-move state: head, body, tail and every vertex and edge type are
unchanged and remain inspectable. -/
theorem C3_collision_death (st : GameState) (edge : Edge) (next : Nat)
    (hi : edge.get_other st.snake.head = some next)
    (h : st.vt next = VertexType.WALL ∨ st.vt next = VertexType.SNAKE) :
    move_snake st edge = (st, some GameError.snakeDied) ∧
      (move_snake st edge).1.snake.head = st.snake.head ∧
      (move_snake st edge).1.snake.body = st.snake.body ∧
      (move_snake st edge).1.snake.tail = st.snake.tail ∧
      (∀ v, (move_snake st edge).1.vt v = st.vt v) ∧
      (∀ e', (move_snake st edge).1.et e' = st.et e') := by
  have h1 := die_post hi h
  rw [h1]
  exact ⟨rfl, rfl, rfl, rfl, fun _ => rfl, fun _ => rfl⟩

def c3st : GameState :=
  ⟨[0, 1], [⟨0, 1, false⟩], fun v => if v = 0 then VertexType.SNAKE else VertexType.WALL,
    fun _ => EdgeType.SNAKE, ⟨0, [⟨0, 1, false⟩], 1, none⟩, [], 0, 0⟩

/-- Witness for C3 at a concrete two-vertex state whose head neighbour is
a WALL. -/
theorem C3_collision_death_witness :
    move_snake c3st ⟨0, 1, false⟩ = (c3st, some GameError.snakeDied) :=
  (C3_collision_death c3st ⟨0, 1, false⟩ 1 (by decide) (by decide)).1

/-- Claim C5: GameGraph.move_snake never invokes the registered
before-move callback slot: the invocation counter is unchanged by every
move, contradicting the specified fire-exactly-once behaviour that
score.py relies on via `graph.move_callback`. -/
theorem C5_move_callback_never_fires (st : GameState) (edge : Edge) :
    (move_snake st edge).1.moveFired = st.moveFired := by
  unfold move_snake
  split
  · rfl
  · split
    · rfl
    · dsimp only
      split
      · split
        · exact update_types_moveFired _
        · rfl
      · split
        · rfl
        · split
          · rfl
          · exact update_types_moveFired _

/-- Claim C9: for every snake accepted by verify, get_segments returns
`len(body) + 1` pairwise-distinct vertices starting at the head and ending
at the tail. -/
theorem C9_get_segments_spec (s : Snake) (hv : s.verify = true) :
    ∃ segs, s.get_segments = some segs ∧
      segs.length = s.body.length + 1 ∧
      segs.Nodup ∧
      segs.head? = some s.head ∧
      segs.getLast? = some s.tail := by
  obtain ⟨l, hw, hnd, hlast⟩ := Snake.verify_sound hv
  exact ⟨l, Snake.get_segments_of_walk hw hlast, walkFrom_length hw, hnd,
    walkFrom_head hw, hlast⟩

/-- Witness for C9 on a concrete two-edge snake. -/
theorem C9_get_segments_witness :
    ∃ segs, (Snake.mk 0 [⟨0, 1, false⟩, ⟨1, 2, false⟩] 2 none).get_segments = some segs ∧
      segs.length = 3 ∧ segs.Nodup ∧ segs.head? = some 0 ∧ segs.getLast? = some 2 :=
  C9_get_segments_spec ⟨0, [⟨0, 1, false⟩, ⟨1, 2, false⟩], 2, none⟩ (by decide)

/-- Claim C10: for vertices `a`, `b` of the graph, get_edge never raises;
it returns a stored canonical edge connecting `a` and `b` when one exists
and None exactly when none does. -/
theorem C10_get_edge_spec (g : Graph) (a b : Nat) (ha : a ∈ g.vertices)
    (hb : b ∈ g.vertices) :
    ∃ r, g.get_edge a b = Except.ok r ∧
      (∀ e, r = some e → e ∈ g.edges ∧ edgeConnects e a b = true) ∧
      (r = none ↔ ∀ e ∈ g.edges, edgeConnects e a b = false) := by
  refine ⟨(g.edges.filter fun e => edgeConnects e a b).getLast?, ?_, ?_, ?_⟩
  · unfold Graph.get_edge
    rw [if_pos ha]
  · intro e he
    have hmem := mem_of_getLast?_eq he
    exact ⟨(List.mem_filter.mp hmem).1, (List.mem_filter.mp hmem).2⟩
  · constructor
    · intro hnone e hee
      rw [List.getLast?_eq_none] at hnone
      by_contra hc
      have : e ∈ g.edges.filter fun e => edgeConnects e a b :=
        List.mem_filter.mpr ⟨hee, by simpa using hc⟩
      rw [hnone] at this
      simp at this
    · intro hall
      rw [List.getLast?_eq_none, List.filter_eq_nil]
      intro e hee
      simp [hall e hee]

/-- Witness for C10 on a concrete three-vertex graph: the stored edge is
found between 0 and 1, and no edge exists between 0 and 2. -/
theorem C10_get_edge_witness :
    ∃ r, (Graph.mk [0, 1, 2] [⟨0, 1, false⟩]).get_edge 0 1 = Except.ok r ∧
      (∀ e, r = some e → e ∈ [(⟨0, 1, false⟩ : Edge)] ∧ edgeConnects e 0 1 = true) ∧
      (r = none ↔ ∀ e ∈ [(⟨0, 1, false⟩ : Edge)], edgeConnects e 0 1 = false) :=
  C10_get_edge_spec ⟨[0, 1, 2], [⟨0, 1, false⟩]⟩ 0 1 (by decide) (by decide)

/-- Claim C8: evaluation of the constructor validation on the inputs the
claim enumerates.  The cycle, trail, disconnected pair, mid-path tail and
looped-edge bodies are all rejected and a missing edge makes from_vertices
fail, but the zero-edge point snake with head = tail is ACCEPTED by
Snake.verify, so construction succeeds where the claim (and the
repository's own test_point_snake) demand failure. -/
theorem C8_construction_cases :
    Snake.verify ⟨0, [], 0, none⟩ = true ∧
    Snake.verify ⟨0, [⟨0, 1, false⟩, ⟨1, 2, false⟩, ⟨2, 0, false⟩], 0, none⟩ = false ∧
    Snake.verify ⟨0, [⟨0, 1, false⟩, ⟨1, 2, false⟩, ⟨2, 3, false⟩, ⟨3, 1, false⟩,
      ⟨1, 4, false⟩], 4, none⟩ = false ∧
    Snake.verify ⟨0, [], 1, none⟩ = false ∧
    Snake.verify ⟨0, [⟨0, 1, false⟩, ⟨1, 2, false⟩], 1, none⟩ = false ∧
    Snake.verify ⟨0, [⟨0, 0, false⟩, ⟨0, 1, false⟩], 1, none⟩ = false ∧
    Snake.from_vertices ⟨[0, 1, 2], [⟨0, 1, false⟩]⟩ [0, 1, 2] =
      Except.error GameError.attributeError := by
  decide

/-- Claim C7: generate_apple fails with the resource-exhausted error when
no EMPTY vertex exists; otherwise, for every random draw, it selects a
vertex that is typed EMPTY (never a non-EMPTY one), retypes it APPLE,
adds it to `apples`, changes no other vertex type, and when exactly one
EMPTY vertex exists that vertex is selected with certainty. -/
theorem C7_generate_apple_spec (st : GameState) (idx : Nat) :
    (emptyVerticesList st = [] → generate_apple st idx = (st, some GameError.valueError)) ∧
    (∀ x xs, emptyVerticesList st = x :: xs →
      ∃ a, a ∈ emptyVerticesList st ∧ st.vt a = VertexType.EMPTY ∧
        (generate_apple st idx).2 = none ∧
        (generate_apple st idx).1.vt a = VertexType.APPLE ∧
        a ∈ (generate_apple st idx).1.apples ∧
        (∀ v, v ≠ a → (generate_apple st idx).1.vt v = st.vt v) ∧
        (xs = [] → a = x)) := by
  constructor
  · intro h
    unfold generate_apple
    rw [h]
  · intro x xs hel
    have hga : generate_apple st idx =
        ({ st with
            vt := fun v => if v = (x :: xs).getD (idx % (x :: xs).length) x
              then VertexType.APPLE else st.vt v,
            apples := if (x :: xs).getD (idx % (x :: xs).length) x ∈ st.apples
              then st.apples
              else (x :: xs).getD (idx % (x :: xs).length) x :: st.apples }, none) := by
      unfold generate_apple
      rw [hel]
    refine ⟨(x :: xs).getD (idx % (x :: xs).length) x, ?_, ?_, ?_, ?_, ?_, ?_, ?_⟩
    · rw [hel]
      exact getD_mem_of_lt (Nat.mod_lt _ (by simp))
    · have hmem : (x :: xs).getD (idx % (x :: xs).length) x ∈ emptyVerticesList st := by
        rw [hel]
        exact getD_mem_of_lt (Nat.mod_lt _ (by simp))
      unfold emptyVerticesList at hmem
      simpa using (List.mem_filter.mp hmem).2
    · rw [hga]
    · rw [hga]
      dsimp only
      rw [if_pos rfl]
    · rw [hga]
      dsimp only
      split
      · assumption
      · exact List.mem_cons_self _ _
    · intro v hv
      rw [hga]
      dsimp only
      rw [if_neg hv]
    · intro hxs
      subst hxs
      simp

def c7st : GameState :=
  ⟨[0, 1, 2], [⟨0, 1, false⟩], fun v => if v = 2 then VertexType.EMPTY else VertexType.SNAKE,
    fun _ => EdgeType.SNAKE, ⟨0, [⟨0, 1, false⟩], 1, none⟩, [], 0, 0⟩

/-- Witness for C7 on a concrete state with exactly one EMPTY vertex. -/
theorem C7_generate_apple_witness :
    (emptyVerticesList c7st = [] →
      generate_apple c7st 5 = (c7st, some GameError.valueError)) ∧
    (∀ x xs, emptyVerticesList c7st = x :: xs →
      ∃ a, a ∈ emptyVerticesList c7st ∧ c7st.vt a = VertexType.EMPTY ∧
        (generate_apple c7st 5).2 = none ∧
        (generate_apple c7st 5).1.vt a = VertexType.APPLE ∧
        a ∈ (generate_apple c7st 5).1.apples ∧
        (∀ v, v ≠ a → (generate_apple c7st 5).1.vt v = c7st.vt v) ∧
        (xs = [] → a = x)) :=
  C7_generate_apple_spec c7st 5

def c1bad : GameState :=
  ⟨[0, 1], [⟨0, 1, false⟩], fun v => if v = 0 then VertexType.SNAKE else VertexType.EMPTY,
    fun _ => EdgeType.SNAKE, ⟨0, [⟨0, 1, false⟩], 1, none⟩, [], 0, 0⟩

/-- Counterexample to C1 as stated: the snake 0-1 satisfies the path
invariant and the edge endpoint 1 is typed EMPTY (the state is
type-inconsistent: 1 is the snake's own tail), yet after the move the new
head 1 — a current segment vertex — is typed EMPTY, not SNAKE, refuting
"sets every current segment vertex and body edge to type SNAKE". -/
theorem C1_counterexample :
    Snake.verify c1bad.snake = true ∧
    c1bad.snake.body ≠ [] ∧
    Edge.get_other ⟨0, 1, false⟩ c1bad.snake.head = some 1 ∧
    c1bad.vt 1 = VertexType.EMPTY ∧
    (move_snake c1bad ⟨0, 1, false⟩).2 = none ∧
    (move_snake c1bad ⟨0, 1, false⟩).1.snake.get_segments = some [1, 0] ∧
    (move_snake c1bad ⟨0, 1, false⟩).1.vt 1 = VertexType.EMPTY := by
  decide

/-- Claim C1 (amended): for a snake satisfying the path invariant (verify
plus nonempty body, §3) and an edge incident to its head whose other
endpoint is typed EMPTY and is not a current segment vertex — which is
automatic in game states, where all segments are typed SNAKE — move slides
the snake: body length unchanged, head becomes the endpoint,
body = [edge] + body[:-1], the new tail is left_edge.get_other(old tail)
for left_edge the last old body edge, exactly the old tail and left_edge
become EMPTY, and every current segment vertex and body edge becomes
SNAKE. -/
theorem C1_slide_spec (st : GameState) (edge : Edge) (next : Nat) (segs : List Nat)
    (hv : st.snake.verify = true)
    (hb : st.snake.body ≠ [])
    (hi : edge.get_other st.snake.head = some next)
    (he : st.vt next = VertexType.EMPTY)
    (hsegs : st.snake.get_segments = some segs)
    (hns : next ∉ segs) :
    ∃ le, st.snake.body.getLast? = some le ∧
      (move_snake st edge).2 = none ∧
      (move_snake st edge).1.snake.head = next ∧
      (move_snake st edge).1.snake.body = edge :: st.snake.body.dropLast ∧
      (move_snake st edge).1.snake.body.length = st.snake.body.length ∧
      le.get_other st.snake.tail = some (move_snake st edge).1.snake.tail ∧
      (move_snake st edge).1.snake.get_segments = some (next :: segs.dropLast) ∧
      (move_snake st edge).1.vt st.snake.tail = VertexType.EMPTY ∧
      (move_snake st edge).1.et le = EdgeType.EMPTY ∧
      (∀ v ∈ next :: segs.dropLast, (move_snake st edge).1.vt v = VertexType.SNAKE) ∧
      (∀ e' ∈ edge :: st.snake.body.dropLast,
        (move_snake st edge).1.et e' = EdgeType.SNAKE) ∧
      (∀ v, (move_snake st edge).1.vt v = VertexType.EMPTY →
        st.vt v = VertexType.EMPTY ∨ v = st.snake.tail) ∧
      (∀ e', (move_snake st edge).1.et e' = EdgeType.EMPTY →
        st.et e' = EdgeType.EMPTY ∨ e' = le) ∧
      (∀ v, v ≠ st.snake.tail → v ∉ next :: segs.dropLast →
        (move_snake st edge).1.vt v = st.vt v) ∧
      (∀ e', e' ≠ le → e' ∉ edge :: st.snake.body.dropLast →
        (move_snake st edge).1.et e' = st.et e') := by
  obtain ⟨l, hw, hnd, hlast⟩ := Snake.verify_sound hv
  have hsl : segs = l := by
    rw [Snake.get_segments_of_walk hw hlast] at hsegs
    exact (Option.some.inj hsegs).symm
  subst hsl
  have hnl : next ∉ segs := hns
  have hwall : st.vt next ≠ VertexType.WALL := by rw [he]; simp
  have hsnk : st.vt next ≠ VertexType.SNAKE := by rw [he]; simp
  have happ : st.vt next ≠ VertexType.APPLE := by rw [he]; simp
  obtain ⟨le, l', nt, hgl, hw', hldec, hlast', hgo, hwalk3, hnd3, hlast3,
    htl3, hle3, hmv⟩ := slide_post hw hnd hlast hb hi hnl hwall hsnk happ
  have hdl : segs.dropLast = l' := by
    rw [hldec]
    simp
  rw [hdl]
  have hlen : st.snake.body.dropLast.length + 1 = st.snake.body.length := by
    cases hbb : st.snake.body with
    | nil => exact absurd hbb hb
    | cons b bs => simp [hbb]
  refine ⟨le, hgl, ?_, ?_, ?_, ?_, ?_, ?_, ?_, ?_, ?_, ?_, ?_, ?_, ?_, ?_⟩ <;>
    rw [hmv]
  · dsimp only
    simpa using hlen
  · dsimp only
    exact hgo
  · dsimp only
    exact Snake.get_segments_of_walk hwalk3 hlast3
  · dsimp only
    rw [if_pos rfl]
  · dsimp only
    rw [if_pos rfl]
  · intro v hv
    dsimp only
    rw [if_neg (show v ≠ st.snake.tail by rintro rfl; exact htl3 hv), if_pos hv]
  · intro e' he'
    dsimp only
    rw [if_neg (show e' ≠ le by rintro rfl; exact hle3 he'), if_pos he']
  · intro v hvt
    dsimp only at hvt
    by_cases hv1 : v = st.snake.tail
    · exact Or.inr hv1
    · rw [if_neg hv1] at hvt
      by_cases hv2 : v ∈ next :: l'
      · rw [if_pos hv2] at hvt
        exact absurd hvt (by simp)
      · rw [if_neg hv2] at hvt
        exact Or.inl hvt
  · intro e' het
    dsimp only at het
    by_cases he1 : e' = le
    · exact Or.inr he1
    · rw [if_neg he1] at het
      by_cases he2 : e' ∈ edge :: st.snake.body.dropLast
      · rw [if_pos he2] at het
        exact absurd het (by simp)
      · rw [if_neg he2] at het
        exact Or.inl het
  · intro v hv1 hv2
    dsimp only
    rw [if_neg hv1, if_neg hv2]
  · intro e' he1 he2
    dsimp only
    rw [if_neg he1, if_neg he2]

def c1w : GameState :=
  ⟨[0, 1, 2, 3], [⟨0, 1, false⟩, ⟨1, 2, false⟩, ⟨0, 3, false⟩],
    fun v => if v = 3 then VertexType.EMPTY else VertexType.SNAKE,
    fun e => if e = ⟨0, 3, false⟩ then EdgeType.EMPTY else EdgeType.SNAKE,
    ⟨0, [⟨0, 1, false⟩, ⟨1, 2, false⟩], 2, none⟩, [], 0, 0⟩

/-- Witness for C1 on a concrete three-segment snake sliding onto an
EMPTY vertex. -/
theorem C1_slide_witness :
    ∃ le, c1w.snake.body.getLast? = some le ∧
      (move_snake c1w ⟨0, 3, false⟩).2 = none ∧
      (move_snake c1w ⟨0, 3, false⟩).1.snake.head = 3 ∧
      (move_snake c1w ⟨0, 3, false⟩).1.snake.body =
        ⟨0, 3, false⟩ :: c1w.snake.body.dropLast ∧
      (move_snake c1w ⟨0, 3, false⟩).1.snake.body.length = c1w.snake.body.length ∧
      le.get_other c1w.snake.tail = some (move_snake c1w ⟨0, 3, false⟩).1.snake.tail ∧
      (move_snake c1w ⟨0, 3, false⟩).1.snake.get_segments =
        some (3 :: [0, 1, 2].dropLast) ∧
      (move_snake c1w ⟨0, 3, false⟩).1.vt c1w.snake.tail = VertexType.EMPTY ∧
      (move_snake c1w ⟨0, 3, false⟩).1.et le = EdgeType.EMPTY ∧
      (∀ v ∈ 3 :: [0, 1, 2].dropLast,
        (move_snake c1w ⟨0, 3, false⟩).1.vt v = VertexType.SNAKE) ∧
      (∀ e' ∈ (⟨0, 3, false⟩ : Edge) :: c1w.snake.body.dropLast,
        (move_snake c1w ⟨0, 3, false⟩).1.et e' = EdgeType.SNAKE) ∧
      (∀ v, (move_snake c1w ⟨0, 3, false⟩).1.vt v = VertexType.EMPTY →
        c1w.vt v = VertexType.EMPTY ∨ v = c1w.snake.tail) ∧
      (∀ e', (move_snake c1w ⟨0, 3, false⟩).1.et e' = EdgeType.EMPTY →
        c1w.et e' = EdgeType.EMPTY ∨ e' = le) ∧
      (∀ v, v ≠ c1w.snake.tail → v ∉ 3 :: [0, 1, 2].dropLast →
        (move_snake c1w ⟨0, 3, false⟩).1.vt v = c1w.vt v) ∧
      (∀ e', e' ≠ le → e' ∉ (⟨0, 3, false⟩ : Edge) :: c1w.snake.body.dropLast →
        (move_snake c1w ⟨0, 3, false⟩).1.et e' = c1w.et e') :=
  C1_slide_spec c1w ⟨0, 3, false⟩ 3 [0, 1, 2] (by decide) (by decide) (by decide)
    (by decide) (by decide) (by decide)

/-- Claim C2: for every valid snake in a GameGraph state and every edge
incident to its head whose other endpoint is an apple (typed APPLE, hence
a member of `apples` by the GameGraph data-model invariant, which is
supplied as the membership hypothesis), move grows the snake: the edge is
prepended so the body length rises by one, the tail is unchanged, no
vertex or edge transitions to EMPTY, the eaten vertex leaves the apples
set, and the apple-eaten observer fires exactly once. -/
theorem C2_grow_spec (st : GameState) (edge : Edge) (next : Nat)
    (hv : st.snake.verify = true)
    (hi : edge.get_other st.snake.head = some next)
    (ha : st.vt next = VertexType.APPLE)
    (hm : next ∈ st.apples) :
    (move_snake st edge).2 = none ∧
    (move_snake st edge).1.snake.head = next ∧
    (move_snake st edge).1.snake.body = edge :: st.snake.body ∧
    (move_snake st edge).1.snake.body.length = st.snake.body.length + 1 ∧
    (move_snake st edge).1.snake.tail = st.snake.tail ∧
    (move_snake st edge).1.apples = st.apples.filter (fun v => v ≠ next) ∧
    next ∉ (move_snake st edge).1.apples ∧
    (move_snake st edge).1.appleFired = st.appleFired + 1 ∧
    (∀ v, (move_snake st edge).1.vt v = VertexType.EMPTY →
      st.vt v = VertexType.EMPTY) ∧
    (∀ e', (move_snake st edge).1.et e' = EdgeType.EMPTY →
      st.et e' = EdgeType.EMPTY) := by
  obtain ⟨l, hw, hnd, hlast⟩ := Snake.verify_sound hv
  have hmv := grow_post hw hlast hi ha hm
  refine ⟨?_, ?_, ?_, ?_, ?_, ?_, ?_, ?_, ?_, ?_⟩ <;> rw [hmv]
  · dsimp only
    simp
  · dsimp only
    intro hc
    have := List.mem_filter.mp hc
    simp at this
  · intro v hvt
    dsimp only at hvt
    by_cases hvm : v ∈ next :: l
    · rw [if_pos hvm] at hvt
      exact absurd hvt (by simp)
    · rwa [if_neg hvm] at hvt
  · intro e' het
    dsimp only at het
    by_cases hem : e' ∈ edge :: st.snake.body
    · rw [if_pos hem] at het
      exact absurd het (by simp)
    · rwa [if_neg hem] at het

def c2w : GameState :=
  ⟨[0, 1, 2], [⟨0, 1, false⟩, ⟨0, 2, false⟩],
    fun v => if v = 2 then VertexType.APPLE else VertexType.SNAKE,
    fun e => if e = ⟨0, 2, false⟩ then EdgeType.EMPTY else EdgeType.SNAKE,
    ⟨0, [⟨0, 1, false⟩], 1, none⟩, [2], 0, 0⟩

/-- Witness for C2 on a concrete snake eating the apple at vertex 2. -/
theorem C2_grow_witness :
    (move_snake c2w ⟨0, 2, false⟩).2 = none ∧
    (move_snake c2w ⟨0, 2, false⟩).1.snake.head = 2 ∧
    (move_snake c2w ⟨0, 2, false⟩).1.snake.body = ⟨0, 2, false⟩ :: c2w.snake.body ∧
    (move_snake c2w ⟨0, 2, false⟩).1.snake.body.length = c2w.snake.body.length + 1 ∧
    (move_snake c2w ⟨0, 2, false⟩).1.snake.tail = c2w.snake.tail ∧
    (move_snake c2w ⟨0, 2, false⟩).1.apples = c2w.apples.filter (fun v => v ≠ 2) ∧
    2 ∉ (move_snake c2w ⟨0, 2, false⟩).1.apples ∧
    (move_snake c2w ⟨0, 2, false⟩).1.appleFired = c2w.appleFired + 1 ∧
    (∀ v, (move_snake c2w ⟨0, 2, false⟩).1.vt v = VertexType.EMPTY →
      c2w.vt v = VertexType.EMPTY) ∧
    (∀ e', (move_snake c2w ⟨0, 2, false⟩).1.et e' = EdgeType.EMPTY →
      c2w.et e' = EdgeType.EMPTY) :=
  C2_grow_spec c2w ⟨0, 2, false⟩ 2 (by decide) (by decide) (by decide) (by decide)

/-- Claim C6 (amended): provided no vertex is typed APPLE at construction
time — which holds for the repository's builders, which create only EMPTY
and WALL vertices — every GameGraph state reachable from construction via
move_snake, generate_apple and generate_apple_if_missing satisfies the
exact containment: every member of `apples` is typed APPLE and every
APPLE-typed vertex is a member of `apples`. -/
theorem C6_apples_exact (V : List Nat) (E : List Edge) (vt0 : Nat → VertexType)
    (et0 : Edge → EdgeType) (sv : List Nat) (st0 st : GameState)
    (hmk : mkGameGraph V E vt0 et0 sv = Except.ok st0)
    (hna : ∀ v ∈ V, vt0 v ≠ VertexType.APPLE)
    (hr : ReachGG st0 st) :
    (∀ v ∈ st.apples, st.vt v = VertexType.APPLE) ∧
    (∀ v ∈ st.vertices, st.vt v = VertexType.APPLE → v ∈ st.apples) :=
  (gameInv_reach (gameInv_init hmk hna).1 hr).2

def c6bad : GameState :=
  match mkGameGraph [0, 1, 2] [⟨0, 1, false⟩]
      (fun v => if v = 2 then VertexType.APPLE else VertexType.EMPTY)
      (fun _ => EdgeType.EMPTY) [0, 1] with
  | .ok st => st
  | .error _ => default

/-- Counterexample to C6 as stated: constructing a GameGraph over a vertex
set that already contains an APPLE-typed vertex succeeds, and the
constructed (hence reachable) state has vertex 2 typed APPLE while
`apples` is empty, breaking the exact containment. -/
theorem C6_counterexample :
    (mkGameGraph [0, 1, 2] [⟨0, 1, false⟩]
        (fun v => if v = 2 then VertexType.APPLE else VertexType.EMPTY)
        (fun _ => EdgeType.EMPTY) [0, 1]).isOk = true ∧
    ReachGG c6bad c6bad ∧
    2 ∈ c6bad.vertices ∧
    c6bad.vt 2 = VertexType.APPLE ∧
    2 ∉ c6bad.apples := by
  refine ⟨by decide, Relation.ReflTransGen.refl, by decide, by decide, by decide⟩

def c6w : GameState :=
  match mkGameGraph [0, 1, 2] [⟨0, 1, false⟩] (fun _ => VertexType.EMPTY)
      (fun _ => EdgeType.EMPTY) [0, 1] with
  | .ok st => st
  | .error _ => default

/-- Witness for the amended C6 at a concrete APPLE-free construction. -/
theorem C6_apples_exact_witness :
    (∀ v ∈ c6w.apples, c6w.vt v = VertexType.APPLE) ∧
    (∀ v ∈ c6w.vertices, c6w.vt v = VertexType.APPLE → v ∈ c6w.apples) :=
  C6_apples_exact [0, 1, 2] [⟨0, 1, false⟩] (fun _ => VertexType.EMPTY)
    (fun _ => EdgeType.EMPTY) [0, 1] c6w c6w rfl (by decide)
    Relation.ReflTransGen.refl

/-- Claim C4 (amended): when the cached path is empty, the apple set is
nonempty, and the chosen apple is unreachable from the head in the induced
traversable subgraph (phrased via a stable reachability closure), and at
least one non-SNAKE edge is incident to the head, choose_next_edge falls
back and returns a member of get_snakes_next_edges() for every random
draw, without raising. -/
theorem C4_fallback_spec (st : GameState) (a n idx : Nat)
    (ha : st.apples.head? = some a)
    (hstable : expandReach (subAdj st) (reachSet (subAdj st) st.snake.head n) =
      reachSet (subAdj st) st.snake.head n)
    (hnr : a ∉ reachSet (subAdj st) st.snake.head n)
    (hne : get_snakes_next_edges st ≠ []) :
    ∃ e, choose_next_edge st [] idx = ([], Except.ok (some e)) ∧
      e ∈ get_snakes_next_edges st := by
  have hbfs := bfs_none_of_unreachable hstable hnr (bfsFuel st)
  unfold choose_next_edge
  simp only [List.length_nil, reduceIte]
  unfold findShortestPath
  rw [ha]
  simp only [hbfs]
  cases hl : get_snakes_next_edges st with
  | nil => exact absurd hl hne
  | cons x xs =>
    refine ⟨(x :: xs).getD (idx % (x :: xs).length) x, ?_, ?_⟩
    · simp only [pickFrom]
      rfl
    · exact getD_mem_of_lt (Nat.mod_lt _ (by simp))

def c4bad : GameState :=
  ⟨[0, 1, 2], [⟨0, 1, false⟩, ⟨0, 2, false⟩],
    fun v => if v = 2 then VertexType.EMPTY else VertexType.SNAKE,
    fun e => if e = ⟨0, 1, false⟩ then EdgeType.SNAKE else EdgeType.EMPTY,
    ⟨0, [⟨0, 1, false⟩], 1, none⟩, [], 0, 0⟩

/-- Counterexample to C4 as stated: with no cached path and an empty apple
set, choose_next_edge raises (IndexError from `list(apples)[0]`) instead
of returning one of the available legal edges, although a legal edge
exists. -/
theorem C4_counterexample :
    c4bad.apples = [] ∧
    get_snakes_next_edges c4bad ≠ [] ∧
    choose_next_edge c4bad [] 0 = ([], Except.error GameError.indexError) := by
  decide

def c4w : GameState :=
  ⟨[0, 1, 2, 3], [⟨0, 1, false⟩, ⟨0, 2, false⟩],
    fun v => if v = 2 then VertexType.EMPTY
      else if v = 3 then VertexType.APPLE else VertexType.SNAKE,
    fun e => if e = ⟨0, 1, false⟩ then EdgeType.SNAKE else EdgeType.EMPTY,
    ⟨0, [⟨0, 1, false⟩], 1, none⟩, [3], 0, 0⟩

/-- Witness for the amended C4: the apple at vertex 3 is disconnected from
the head's component, so the fallback returns the only legal edge. -/
theorem C4_fallback_witness :
    ∃ e, choose_next_edge c4w [] 7 = ([], Except.ok (some e)) ∧
      e ∈ get_snakes_next_edges c4w :=
  C4_fallback_spec c4w 3 1 7 (by decide) (by decide) (by decide) (by decide)
